import Mathlib

/-!
Verification of the `symboltable` string-interning engine.

The development shallowly embeds the Rust sources:
  * `src/array.rs`  — `ArrayInterner`, `SymbolCell` and the store operations;
  * `src/table.rs`  — `SymbolTable`, the provenance-checked facade;
  * `src/symbol.rs` — `Symbol` with its equality / ordering / hashing;
  * `src/errors.rs` — `ResolutionErr`;
  * `src/symbol_iterator.rs` — `SymbolIterator` and its debug rendering.

Rust `Vec` and `VecDeque` are modelled as `List`, `HashSet<TypeId>` as a
duplicate-free `List` of abstract markers, `TypeId` as `Nat`, and the memory
address used for table identity as an abstract `Nat` token.  Fallible
positional access (`Vec::get(..).unwrap()`) is modelled with `Option`.
-/

namespace SymTab

/-- Models `std::any::TypeId`: an abstract logical-domain marker. -/
abbrev TypeId := Nat

/-- Models `SymbolCell` (src/array.rs): a stored string value together with
the set of domain markers recorded for it (`typs: HashSet<TypeId>`). -/
structure SymbolCell where
  value : String
  typs  : List TypeId
deriving DecidableEq

/-- Models `SymbolCell::has_type`: `self.typs.contains(id)`. -/
def SymbolCell.has_type (c : SymbolCell) (t : TypeId) : Bool :=
  c.typs.contains t

/-- Models `SymbolCell::add_type`: `self.typs.insert(id)` on a `HashSet`,
which adds the marker only when absent. -/
def SymbolCell.add_type (c : SymbolCell) (t : TypeId) : SymbolCell :=
  { c with typs := if c.typs.contains t then c.typs else t :: c.typs }

/-- Models `Vec::get` / positional indexing used by the store. -/
def getAt : List α → Nat → Option α
  | [], _ => none
  | x :: _, 0 => some x
  | _ :: xs, n + 1 => getAt xs n

/-- Models in-place mutation through `Vec::get_mut(n)` followed by an update
of the cell (out-of-range indices leave the list unchanged; every call site
in the source passes an in-range index). -/
def modifyAt (f : α → α) : Nat → List α → List α
  | _, [] => []
  | 0, x :: xs => f x :: xs
  | n + 1, x :: xs => x :: modifyAt f n xs

/-- Models `Iterator::position`: index of the first element satisfying the
predicate. -/
def findPos (p : α → Bool) : List α → Option Nat
  | [] => none
  | x :: xs => if p x then some 0 else (findPos p xs).map (· + 1)

/-- Models `ArrayInterner` (src/array.rs): `store: Vec<SymbolCell>`. -/
structure ArrayInterner where
  store : List SymbolCell
deriving DecidableEq

/-- Models `ArrayInterner::new`: a store seeded with the empty-string
sentinel cell at position 0. -/
def ArrayInterner.new : ArrayInterner :=
  ⟨[⟨"", []⟩]⟩

/-- Models `ArrayInterner::position`: scan the store skipping the sentinel
at index 0 (`iter().skip(1).position(..)`), comparing stored strings, and
offset the found index by one. -/
def ArrayInterner.position (a : ArrayInterner) (val : String) : Option Nat :=
  (findPos (fun cell => cell.value == val) (a.store.drop 1)).map (· + 1)

/-- Models `ArrayInterner::upsert_type`: fetch the cell at `position`, add
the marker when absent, and return `position` as the identifier
(`SerialU64::try_from(position as u64).unwrap()`). -/
def ArrayInterner.upsert_type (a : ArrayInterner) (pos : Nat) (typ : TypeId) :
    Nat × ArrayInterner :=
  (pos,
    ⟨modifyAt (fun cell => if cell.has_type typ then cell else cell.add_type typ)
      pos a.store⟩)

/-- Models `ArrayInterner::get_type` exactly as written in the source: the
cell at `position` is fetched, `has_type` is computed by `.map`, and then
`.and_then(|_| SerialU64::try_from(position as u64).ok())` discards that
boolean and produces the identifier whenever the position is in range. -/
def ArrayInterner.get_type (a : ArrayInterner) (pos : Nat) (typ : TypeId) :
    Option Nat :=
  ((getAt a.store pos).map (fun cell => cell.has_type typ)).bind
    (fun _ => some pos)

/-- Models `ArrayInterner::add_new`: append a fresh cell seeded with the
string and the marker; the identifier is the pre-push length. -/
def ArrayInterner.add_new (a : ArrayInterner) (val : String) (typ : TypeId) :
    Nat × ArrayInterner :=
  (a.store.length, ⟨a.store ++ [(SymbolCell.mk val []).add_type typ]⟩)

/-- Models `ArrayInterner::intern` (the `Interner` impl): scan for the
string; on a match record the marker on that cell, otherwise append. -/
def ArrayInterner.intern (a : ArrayInterner) (val : String) (typ : TypeId) :
    Nat × ArrayInterner :=
  match a.position val with
  | some pos => a.upsert_type pos typ
  | none => a.add_new val typ

/-- Models `ArrayInterner::resolve`: `self.store.get(index).unwrap().value()`.
The `unwrap` panic on an out-of-range identifier is modelled as `none`. -/
def ArrayInterner.resolve? (a : ArrayInterner) (id : Nat) : Option String :=
  (getAt a.store id).map SymbolCell.value

/-- Models `ArrayInterner::get_interned`: the same scan as `intern`, without
mutation, chained into `get_type`. -/
def ArrayInterner.get_interned (a : ArrayInterner) (val : String) (typ : TypeId) :
    Option Nat :=
  (a.position val).bind (fun pos => a.get_type pos typ)

/-- The list of strings held by the store's cells, in positional order. -/
def ArrayInterner.values (a : ArrayInterner) : List String :=
  a.store.map SymbolCell.value

/-- Models `Symbol<T>` (src/symbol.rs): a raw identifier plus the identity
(`lookup.addr()`) of the table that minted it.  The compile-time domain tag
`T` is kept outside the structure: the table operations below take the
corresponding `TypeId` marker as an argument. -/
structure Symbol where
  id     : Nat
  origin : Nat
deriving DecidableEq

/-- Models `impl PartialEq for Symbol`:
`self.id == other.id && self.lookup.addr() == other.lookup.addr()`. -/
def Symbol.beq (a b : Symbol) : Bool :=
  a.id == b.id && a.origin == b.origin

/-- Models `impl Ord for Symbol`: `self.id.cmp(&other.id)`. -/
def Symbol.cmp (a b : Symbol) : Ordering :=
  compare a.id b.id

/-- Models `impl Hash for Symbol`: only `self.id` is fed to the hasher, so
for an arbitrary hasher the hash is a function of the raw identifier. -/
def Symbol.hashWith (hasher : Nat → Nat) (a : Symbol) : Nat :=
  hasher a.id

/-- Models `ResolutionErr` (src/errors.rs); `MismatchErr` carries the table
address then the symbol's origin address, as `TableMismatchErr::new` does. -/
inductive ResolutionErr where
  | MismatchErr (table_address symbol_address : Nat)
  | ParseErr
deriving DecidableEq

/-- Models `SymbolTable` (src/table.rs): the shared `ArrayInterner` plus the
identity token (`self.interner.as_ptr()`) that `addr()` exposes. -/
structure SymbolTable where
  interner : ArrayInterner
  addr     : Nat
deriving DecidableEq

/-- Models `SymbolTable::intern`: intern the string form under `T`'s marker
and wrap the raw identifier into a symbol stamped with this table's
identity.  Returns the minted symbol and the table with its updated store. -/
def SymbolTable.intern (t : SymbolTable) (item : String) (typ : TypeId) :
    Symbol × SymbolTable :=
  let r := t.interner.intern item typ
  (⟨r.1, t.addr⟩, ⟨r.2, t.addr⟩)

/-- Models `SymbolTable::resolve` for an arbitrary internable type `T`,
represented by its fallible parse `tryFrom : String → Option T`
(`T::try_from`): the origin check first, then the store lookup, then the
parse.  The outer `Option` models the store's `unwrap` panic on an invalid
identifier (`none` = panic); `T = String` has `tryFrom = some`. -/
def SymbolTable.resolveWith {T : Type} (t : SymbolTable)
    (tryFrom : String → Option T) (sym : Symbol) :
    Option (Except ResolutionErr T) :=
  if t.addr ≠ sym.origin then
    some (Except.error (ResolutionErr.MismatchErr t.addr sym.origin))
  else
    (t.interner.resolve? sym.id).map (fun s =>
      match tryFrom s with
      | some v => Except.ok v
      | none => Except.error ResolutionErr.ParseErr)

/-- Models `SymbolTable::get_interned`: query the store and wrap a found
identifier into a symbol stamped with this table's identity. -/
def SymbolTable.get_interned (t : SymbolTable) (val : String) (typ : TypeId) :
    Option Symbol :=
  (t.interner.get_interned val typ).map (fun id => ⟨id, t.addr⟩)

/-- Models `SymbolTable::has_interned`: `get_interned(..).is_some()`. -/
def SymbolTable.has_interned (t : SymbolTable) (val : String) (typ : TypeId) :
    Bool :=
  (t.get_interned val typ).isSome

/-- One facade operation touching the shared store. -/
inductive Op where
  | internOp (val : String) (typ : TypeId)
  | resolveOp (id : Nat)
  | getInternedOp (val : String) (typ : TypeId)
  | hasInternedOp (val : String) (typ : TypeId)
deriving DecidableEq

/-- The store after one facade operation: `intern` goes through
`borrow_mut` and replaces the store; `resolve`, `get_interned` and
`has_interned` take shared borrows (`&self`) and leave it as is. -/
def stepStore (a : ArrayInterner) : Op → ArrayInterner
  | .internOp v t => (a.intern v t).2
  | .resolveOp _ => a
  | .getInternedOp _ _ => a
  | .hasInternedOp _ _ => a

/-- The store after a sequence of facade operations. -/
def applySteps (a : ArrayInterner) : List Op → ArrayInterner
  | [] => a
  | op :: ops => applySteps (stepStore a op) ops

/-- Models Rust's `String::len`: the UTF-8 byte length of the string. -/
def strByteLen (s : String) : Nat :=
  (s.toList.map Char.utf8Size).sum

/-- Models `SymbolIterator<T>` (src/symbol_iterator.rs).  The `source`
field of the Rust struct is a `Symbol<T>`; every use of it in the iterator
goes through `source.to_string()`, which resolves the symbol to its interned
string, so the model carries that resolved string directly.  `remaining` is
the `VecDeque<char>` of characters not yet consumed. -/
structure SymbolIterator where
  source    : String
  remaining : List Char
deriving DecidableEq

/-- Models `SymbolIterator::new`: collect the resolved string's characters
into the deque. -/
def SymbolIterator.new (sourceStr : String) : SymbolIterator :=
  ⟨sourceStr, sourceStr.toList⟩

/-- Models `Iterator::next`: `self.remaining.pop_front()` — the popped
character (if any) and the updated iterator. -/
def SymbolIterator.next (it : SymbolIterator) : Option Char × SymbolIterator :=
  (it.remaining.head?, ⟨it.source, it.remaining.tail⟩)

/-- Models `DoubleEndedIterator::next_back`: `self.remaining.pop_back()`. -/
def SymbolIterator.next_back (it : SymbolIterator) :
    Option Char × SymbolIterator :=
  (it.remaining.getLast?, ⟨it.source, it.remaining.dropLast⟩)

/-- Models `SymbolIterator::has_next`: `!self.remaining.is_empty()`. -/
def SymbolIterator.has_next (it : SymbolIterator) : Bool :=
  !it.remaining.isEmpty

/-- Models `SymbolIterator::peek`: `self.remaining.front().cloned()`. -/
def SymbolIterator.peek (it : SymbolIterator) : Option Char :=
  it.remaining.head?

/-- The character loop of `impl fmt::Debug for SymbolIterator`: each
character of the original string in order, with the marker `•` written
just before the character whose index equals `m` (`i == num_matched`). -/
def renderChars : List Char → Nat → Nat → List Char
  | [], _, _ => []
  | c :: cs, i, m => (if i = m then ['•'] else []) ++ c :: renderChars cs (i + 1) m

/-- Models `impl fmt::Debug for SymbolIterator` (and `Display`, which
delegates to it): `num_matched = original.len() - remaining.len()` (byte
length of the original minus the count of remaining characters), then an
opening quote, the character loop, a trailing `•` when the iterator is
exhausted, and a closing quote. -/
def SymbolIterator.debugFmt (it : SymbolIterator) : String :=
  let m := strByteLen it.source - it.remaining.length
  String.mk ('"' :: (renderChars it.source.toList 0 m ++
    (if it.has_next then [] else ['•']) ++ ['"']))

/-- A sequence of consumptions on a `SymbolIterator`: `true` is a front
consumption (`next`), `false` a back consumption (`next_back`). -/
def SymbolIterator.applyConsume (it : SymbolIterator) : List Bool → SymbolIterator
  | [] => it
  | b :: bs =>
    SymbolIterator.applyConsume (if b then it.next.2 else it.next_back.2) bs

/-! ## Helper lemmas about the list primitives -/

theorem getAt_isSome_of_lt {α : Type} :
    ∀ (l : List α) (n : Nat), n < l.length → (getAt l n).isSome = true := by
  intro l
  induction l with
  | nil => intro n h; exact absurd h (Nat.not_lt_zero n)
  | cons x xs ih =>
    intro n h
    cases n with
    | zero => rfl
    | succ m => exact ih m (Nat.lt_of_succ_lt_succ h)

theorem getAt_drop_one {α : Type} (l : List α) (i : Nat) :
    getAt (l.drop 1) i = getAt l (i + 1) := by
  cases l <;> rfl

theorem getAt_concat_length {α : Type} :
    ∀ (l : List α) (x : α), getAt (l ++ [x]) l.length = some x := by
  intro l
  induction l with
  | nil => intro x; rfl
  | cons y ys ih => intro x; exact ih x

theorem getAt_append_left {α : Type} :
    ∀ (l l2 : List α) (n : Nat), n < l.length → getAt (l ++ l2) n = getAt l n := by
  intro l
  induction l with
  | nil => intro l2 n h; exact absurd h (Nat.not_lt_zero n)
  | cons x xs ih =>
    intro l2 n h
    cases n with
    | zero => rfl
    | succ m => exact ih l2 m (Nat.lt_of_succ_lt_succ h)

theorem length_modifyAt {α : Type} (f : α → α) :
    ∀ (n : Nat) (l : List α), (modifyAt f n l).length = l.length := by
  intro n
  induction n with
  | zero => intro l; cases l <;> rfl
  | succ m ih =>
    intro l
    cases l with
    | nil => rfl
    | cons x xs => simp [modifyAt, ih xs]

theorem getAt_modifyAt_self {α : Type} (f : α → α) :
    ∀ (n : Nat) (l : List α), getAt (modifyAt f n l) n = (getAt l n).map f := by
  intro n
  induction n with
  | zero => intro l; cases l <;> rfl
  | succ m ih =>
    intro l
    cases l with
    | nil => rfl
    | cons x xs => exact ih xs

theorem getAt_modifyAt_succ_zero {α : Type} (f : α → α) (n : Nat) (l : List α) :
    getAt (modifyAt f (n + 1) l) 0 = getAt l 0 := by
  cases l <;> rfl

theorem findPos_some_getAt {α : Type} (p : α → Bool) :
    ∀ (l : List α) (i : Nat), findPos p l = some i →
      ∃ x, getAt l i = some x ∧ p x = true := by
  intro l
  induction l with
  | nil => intro i h; exact absurd h (by simp [findPos])
  | cons x xs ih =>
    intro i h
    by_cases hpx : p x = true
    · have : findPos p (x :: xs) = some 0 := by simp [findPos, hpx]
      rw [this] at h
      cases h
      exact ⟨x, rfl, hpx⟩
    · have hx : p x = false := by simpa using hpx
      have : findPos p (x :: xs) = (findPos p xs).map (· + 1) := by
        simp [findPos, hx]
      rw [this] at h
      rcases Option.map_eq_some'.mp h with ⟨j, hj, hji⟩
      rcases ih j hj with ⟨y, hy, hpy⟩
      exact ⟨y, by rw [← hji]; exact hy, hpy⟩

theorem getAt_eq_none_of_le {α : Type} :
    ∀ (l : List α) (i : Nat), l.length ≤ i → getAt l i = none := by
  intro l
  induction l with
  | nil => intro i _; rfl
  | cons y ys ih =>
    intro i hge
    cases i with
    | zero => exact absurd hge (by simp)
    | succ m => exact ih m (Nat.le_of_succ_le_succ hge)

theorem findPos_lt {α : Type} (p : α → Bool) :
    ∀ (l : List α) (i : Nat), findPos p l = some i → i < l.length := by
  intro l i h
  rcases findPos_some_getAt p l i h with ⟨x, hx, _⟩
  by_contra hlt
  have hge : l.length ≤ i := Nat.le_of_not_lt hlt
  rw [getAt_eq_none_of_le l i hge] at hx
  exact absurd hx (by simp)

theorem findPos_none_mem {α : Type} (p : α → Bool) :
    ∀ (l : List α), findPos p l = none → ∀ x ∈ l, p x = false := by
  intro l
  induction l with
  | nil => intro _ x hx; exact absurd hx (by simp)
  | cons y ys ih =>
    intro h x hx
    by_cases hpy : p y = true
    · exact absurd h (by simp [findPos, hpy])
    · have hy : p y = false := by simpa using hpy
      have hys : findPos p ys = none := by
        have : (findPos p ys).map (· + 1) = none := by
          have := h; simpa [findPos, hy] using this
        simpa using this
      rcases List.mem_cons.mp hx with rfl | hmem
      · exact hy
      · exact ih hys x hmem

theorem findPos_append_some {α : Type} (p : α → Bool) :
    ∀ (l l2 : List α) (i : Nat), findPos p l = some i →
      findPos p (l ++ l2) = some i := by
  intro l
  induction l with
  | nil => intro l2 i h; exact absurd h (by simp [findPos])
  | cons x xs ih =>
    intro l2 i h
    by_cases hpx : p x = true
    · have hx : findPos p (x :: xs) = some 0 := by simp [findPos, hpx]
      rw [hx] at h; cases h
      simp [findPos, hpx]
    · have hx : p x = false := by simpa using hpx
      have hrec : (findPos p xs).map (· + 1) = some i := by
        have := h; simpa [findPos, hx] using this
      rcases Option.map_eq_some'.mp hrec with ⟨j, hj, hji⟩
      have := ih l2 j hj
      simp [findPos, hx, this, hji]

theorem findPos_concat_self {α : Type} (p : α → Bool) :
    ∀ (l : List α) (x : α), findPos p l = none → p x = true →
      findPos p (l ++ [x]) = some l.length := by
  intro l
  induction l with
  | nil => intro x _ hpx; simp [findPos, hpx]
  | cons y ys ih =>
    intro x h hpx
    by_cases hpy : p y = true
    · exact absurd h (by simp [findPos, hpy])
    · have hy : p y = false := by simpa using hpy
      have hys : findPos p ys = none := by
        have : (findPos p ys).map (· + 1) = none := by
          have := h; simpa [findPos, hy] using this
        simpa using this
      simp [findPos, hy, ih x hys hpx]

theorem findPos_modifyAt {α : Type} (p : α → Bool) (f : α → α)
    (hp : ∀ x, p (f x) = p x) :
    ∀ (n : Nat) (l : List α), findPos p (modifyAt f n l) = findPos p l := by
  intro n
  induction n with
  | zero =>
    intro l
    cases l with
    | nil => rfl
    | cons x xs => simp [modifyAt, findPos, hp x]
  | succ m ih =>
    intro l
    cases l with
    | nil => rfl
    | cons x xs => simp [modifyAt, findPos, ih xs]

theorem map_value_modifyAt (f : SymbolCell → SymbolCell)
    (hf : ∀ c, (f c).value = c.value) :
    ∀ (n : Nat) (l : List SymbolCell),
      (modifyAt f n l).map SymbolCell.value = l.map SymbolCell.value := by
  intro n
  induction n with
  | zero =>
    intro l
    cases l with
    | nil => rfl
    | cons x xs => simp [modifyAt, hf x]
  | succ m ih =>
    intro l
    cases l with
    | nil => rfl
    | cons x xs => simp [modifyAt, ih xs]

/-! ## Lemmas about the array store -/

theorem value_upsertF (t : TypeId) (x : SymbolCell) :
    (if x.has_type t then x else x.add_type t).value = x.value := by
  by_cases h : x.has_type t <;> simp [h, SymbolCell.add_type]

theorem position_upsert (a : ArrayInterner) (pos : Nat) (t : TypeId) (v : String) :
    ((a.upsert_type pos t).2).position v = a.position v := by
  have hp : ∀ x : SymbolCell,
      ((if x.has_type t then x else x.add_type t).value == v) = (x.value == v) := by
    intro x; rw [value_upsertF]
  show (findPos (fun cell => cell.value == v)
      ((modifyAt (fun cell => if cell.has_type t then cell else cell.add_type t)
        pos a.store).drop 1)).map (· + 1) = _
  cases hs : a.store with
  | nil => simp [modifyAt, ArrayInterner.position, hs]
  | cons c cs =>
    cases pos with
    | zero => simp [modifyAt, ArrayInterner.position, hs]
    | succ m =>
      simp only [modifyAt, List.drop_succ_cons, List.drop_zero]
      rw [findPos_modifyAt _ _ hp]
      simp [ArrayInterner.position, hs]

theorem position_some_value (a : ArrayInterner) (v : String) (pos : Nat)
    (h : a.position v = some pos) :
    ∃ cell, getAt a.store pos = some cell ∧ cell.value = v := by
  unfold ArrayInterner.position at h
  rcases Option.map_eq_some'.mp h with ⟨i, hi, hip⟩
  rcases findPos_some_getAt _ _ _ hi with ⟨x, hx, hpx⟩
  rw [getAt_drop_one] at hx
  rw [← hip]
  exact ⟨x, hx, eq_of_beq hpx⟩

theorem position_lt (a : ArrayInterner) (v : String) (pos : Nat)
    (h : a.position v = some pos) : pos < a.store.length := by
  unfold ArrayInterner.position at h
  rcases Option.map_eq_some'.mp h with ⟨i, hi, hip⟩
  have := findPos_lt _ _ _ hi
  simp only [List.length_drop] at this
  omega

theorem position_nonempty (a : ArrayInterner) (v : String) (pos : Nat)
    (h : a.position v = some pos) : a.store ≠ [] := by
  intro hnil
  rw [ArrayInterner.position, hnil] at h
  exact absurd h (by simp [findPos])

theorem intern_position (a : ArrayInterner) (v : String) (t : TypeId)
    (h : a.store ≠ []) :
    ((a.intern v t).2).position v = some (a.intern v t).1 := by
  unfold ArrayInterner.intern
  cases hpos : a.position v with
  | some pos =>
    rw [position_upsert]
    simpa [ArrayInterner.upsert_type] using hpos
  | none =>
    cases hs : a.store with
    | nil => exact absurd hs h
    | cons c cs =>
      have hcs : findPos (fun cell => cell.value == v) cs = none := by
        rw [ArrayInterner.position, hs] at hpos
        simpa using hpos
      have happ := findPos_concat_self (fun cell => cell.value == v) cs
        ((SymbolCell.mk v []).add_type t) hcs (by simp [SymbolCell.add_type])
      simp only [ArrayInterner.add_new, ArrayInterner.position, hs]
      simp [happ]

theorem intern_fst_lt (a : ArrayInterner) (v : String) (t : TypeId) :
    (a.intern v t).1 < (a.intern v t).2.store.length := by
  unfold ArrayInterner.intern
  cases hpos : a.position v with
  | some pos =>
    have := position_lt a v pos hpos
    simpa [ArrayInterner.upsert_type, length_modifyAt] using this
  | none => simp [ArrayInterner.add_new]

theorem intern_resolve (a : ArrayInterner) (v : String) (t : TypeId) :
    ((a.intern v t).2).resolve? ((a.intern v t).1) = some v := by
  unfold ArrayInterner.intern
  cases hpos : a.position v with
  | some pos =>
    rcases position_some_value a v pos hpos with ⟨cell, hcell, hval⟩
    simp only [ArrayInterner.upsert_type, ArrayInterner.resolve?]
    rw [getAt_modifyAt_self, hcell]
    simp [value_upsertF, hval]
  | none =>
    simp only [ArrayInterner.add_new, ArrayInterner.resolve?]
    rw [getAt_concat_length]
    simp [SymbolCell.add_type]

theorem intern_of_position_some (a : ArrayInterner) (v : String) (t : TypeId)
    (pos : Nat) (h : a.position v = some pos) :
    a.intern v t = a.upsert_type pos t := by
  unfold ArrayInterner.intern
  rw [h]

theorem position_stepStore (a : ArrayInterner) (op : Op) (v : String) (i : Nat)
    (h : a.position v = some i) : (stepStore a op).position v = some i := by
  cases op with
  | internOp w t =>
    show (a.intern w t).2.position v = some i
    unfold ArrayInterner.intern
    cases hw : a.position w with
    | some pos => simpa [position_upsert] using h
    | none =>
      cases hs : a.store with
      | nil => exact absurd hs (position_nonempty a v i h)
      | cons c cs =>
        rw [ArrayInterner.position, hs] at h
        rcases Option.map_eq_some'.mp h with ⟨j, hj, hji⟩
        simp only [List.drop_succ_cons, List.drop_zero] at hj
        have := findPos_append_some (fun cell => cell.value == v) cs
          [(SymbolCell.mk w []).add_type t] j hj
        simp only [ArrayInterner.add_new, ArrayInterner.position, hs]
        simp [this, hji]
  | resolveOp id => exact h
  | getInternedOp w t => exact h
  | hasInternedOp w t => exact h

theorem position_applySteps (ops : List Op) :
    ∀ (a : ArrayInterner) (v : String) (i : Nat),
      a.position v = some i → (applySteps a ops).position v = some i := by
  induction ops with
  | nil => intro a v i h; exact h
  | cons op ops ih =>
    intro a v i h
    exact ih _ _ _ (position_stepStore a op v i h)

theorem length_stepStore (a : ArrayInterner) (op : Op) :
    a.store.length ≤ (stepStore a op).store.length := by
  cases op with
  | internOp w t =>
    show a.store.length ≤ (a.intern w t).2.store.length
    unfold ArrayInterner.intern
    cases hw : a.position w with
    | some pos => simp [ArrayInterner.upsert_type, length_modifyAt]
    | none => simp [ArrayInterner.add_new]
  | resolveOp id => exact Nat.le_refl _
  | getInternedOp w t => exact Nat.le_refl _
  | hasInternedOp w t => exact Nat.le_refl _

theorem length_applySteps (ops : List Op) :
    ∀ (a : ArrayInterner), a.store.length ≤ (applySteps a ops).store.length := by
  induction ops with
  | nil => intro a; exact Nat.le_refl _
  | cons op ops ih =>
    intro a
    exact Nat.le_trans (length_stepStore a op) (ih (stepStore a op))

theorem sentinel_stepStore (a : ArrayInterner) (op : Op)
    (h : getAt a.store 0 = some ⟨"", []⟩) :
    getAt (stepStore a op).store 0 = some ⟨"", []⟩ := by
  cases op with
  | internOp w t =>
    show getAt (a.intern w t).2.store 0 = _
    unfold ArrayInterner.intern
    cases hw : a.position w with
    | some pos =>
      rw [ArrayInterner.position] at hw
      rcases Option.map_eq_some'.mp hw with ⟨i, _, hip⟩
      simp only [ArrayInterner.upsert_type]
      rw [← hip, getAt_modifyAt_succ_zero]
      exact h
    | none =>
      cases hs : a.store with
      | nil => rw [hs] at h; exact absurd h (by simp [getAt])
      | cons c cs =>
        rw [hs] at h
        simpa [ArrayInterner.add_new, hs, getAt] using h
  | resolveOp id => exact h
  | getInternedOp w t => exact h
  | hasInternedOp w t => exact h

theorem sentinel_applySteps (ops : List Op) :
    ∀ (a : ArrayInterner), getAt a.store 0 = some ⟨"", []⟩ →
      getAt (applySteps a ops).store 0 = some ⟨"", []⟩ := by
  induction ops with
  | nil => intro a h; exact h
  | cons op ops ih => intro a h; exact ih _ (sentinel_stepStore a op h)

theorem nodup_stepStore (a : ArrayInterner) (op : Op)
    (h : (a.values.drop 1).Nodup) : ((stepStore a op).values.drop 1).Nodup := by
  cases op with
  | internOp w t =>
    show (((a.intern w t).2).values.drop 1).Nodup
    unfold ArrayInterner.intern
    cases hw : a.position w with
    | some pos =>
      have hv : ((a.upsert_type pos t).2).values = a.values := by
        simp only [ArrayInterner.upsert_type, ArrayInterner.values]
        exact map_value_modifyAt _ (value_upsertF t) pos a.store
      rw [hv]
      exact h
    | none =>
      cases hs : a.store with
      | nil => simp [ArrayInterner.add_new, ArrayInterner.values, hs]
      | cons c cs =>
        have hcs : findPos (fun cell => cell.value == w) cs = none := by
          rw [ArrayInterner.position, hs] at hw
          simpa using hw
        have hmem : w ∉ cs.map SymbolCell.value := by
          intro hwmem
          rcases List.mem_map.mp hwmem with ⟨cell, hcellmem, hcellval⟩
          have := findPos_none_mem _ cs hcs cell hcellmem
          rw [hcellval] at this
          simp at this
        rw [ArrayInterner.values, hs] at h
        simp only [List.map_cons, List.drop_succ_cons, List.drop_zero] at h
        simp only [ArrayInterner.add_new, ArrayInterner.values, hs,
          List.cons_append, List.map_cons, List.map_append, List.map_singleton,
          List.drop_succ_cons, List.drop_zero]
        rw [List.nodup_append]
        refine ⟨h, List.nodup_singleton _, ?_⟩
        intro x hx hx1
        rcases List.mem_singleton.mp hx1 with rfl
        exact hmem (by simpa [SymbolCell.add_type] using hx)
  | resolveOp id => exact h
  | getInternedOp w t => exact h
  | hasInternedOp w t => exact h

theorem nodup_applySteps (ops : List Op) :
    ∀ (a : ArrayInterner), (a.values.drop 1).Nodup →
      ((applySteps a ops).values.drop 1).Nodup := by
  induction ops with
  | nil => intro a h; exact h
  | cons op ops ih => intro a h; exact ih _ (nodup_stepStore a op h)

/-! ## Lemmas about the character view -/

theorem renderChars_of_lt :
    ∀ (l : List Char) (i m : Nat), m < i → renderChars l i m = l := by
  intro l
  induction l with
  | nil => intro i m _; rfl
  | cons c cs ih =>
    intro i m h
    have hne : i ≠ m := Nat.ne_of_gt h
    simp only [renderChars, if_neg hne, List.nil_append]
    rw [ih (i + 1) m (Nat.lt_succ_of_lt h)]

theorem renderChars_of_ge :
    ∀ (l : List Char) (i m : Nat), i + l.length ≤ m → renderChars l i m = l := by
  intro l
  induction l with
  | nil => intro i m _; rfl
  | cons c cs ih =>
    intro i m h
    have hne : i ≠ m := by simp only [List.length_cons] at h; omega
    simp only [renderChars, if_neg hne, List.nil_append]
    rw [ih (i + 1) m (by simp only [List.length_cons] at h; omega)]

theorem renderChars_split :
    ∀ (l : List Char) (i m : Nat), i ≤ m → m < i + l.length →
      renderChars l i m = l.take (m - i) ++ '•' :: l.drop (m - i) := by
  intro l
  induction l with
  | nil => intro i m h1 h2; simp only [List.length_nil] at h2; omega
  | cons c cs ih =>
    intro i m h1 h2
    by_cases him : i = m
    · subst him
      simp [renderChars, renderChars_of_lt cs (i + 1) i (Nat.lt_succ_self i)]
    · have hlt : i < m := Nat.lt_of_le_of_ne h1 him
      have hsub : m - i = (m - (i + 1)) + 1 := by omega
      simp only [renderChars, if_neg him, List.nil_append]
      rw [ih (i + 1) m hlt (by simp only [List.length_cons] at h2; omega)]
      rw [hsub, List.take_succ_cons, List.drop_succ_cons, List.cons_append]

theorem applyConsume_source :
    ∀ (bs : List Bool) (it : SymbolIterator),
      (it.applyConsume bs).source = it.source := by
  intro bs
  induction bs with
  | nil => intro it; rfl
  | cons b bs ih =>
    intro it
    rw [SymbolIterator.applyConsume, ih]
    cases b <;> rfl

theorem applyConsume_remaining_le :
    ∀ (bs : List Bool) (it : SymbolIterator),
      (it.applyConsume bs).remaining.length ≤ it.remaining.length := by
  intro bs
  induction bs with
  | nil => intro it; exact Nat.le_refl _
  | cons b bs ih =>
    intro it
    rw [SymbolIterator.applyConsume]
    refine Nat.le_trans (ih _) ?_
    cases b with
    | true => simp [SymbolIterator.next]
    | false => simp [SymbolIterator.next_back]

/-- Closed form of the debug rendering: when the recorded byte length of the
source equals its character count and no more characters remain than the
source has, the rendering is the source with the marker after
`length - remaining` characters, inside quote marks. -/
theorem debugFmt_eq (it : SymbolIterator)
    (h : strByteLen it.source = it.source.toList.length)
    (hle : it.remaining.length ≤ it.source.toList.length) :
    it.debugFmt = String.mk ('"' ::
      (it.source.toList.take (it.source.toList.length - it.remaining.length) ++
        '•' :: (it.source.toList.drop
          (it.source.toList.length - it.remaining.length) ++ ['"']))) := by
  obtain ⟨src, rem⟩ := it
  simp only at h hle
  simp only [SymbolIterator.debugFmt, SymbolIterator.has_next, h]
  cases rem with
  | nil =>
    rw [renderChars_of_ge src.toList 0 _ (by simp)]
    simp only [List.length_nil, Nat.sub_zero, List.take_length, List.drop_length,
      List.isEmpty_nil, Bool.not_true, Bool.false_eq_true, if_false,
      List.append_assoc, List.nil_append, List.cons_append, List.append_nil]
  | cons c cs =>
    have hpos : 0 < (c :: cs).length := by simp
    have hk : src.toList.length - (c :: cs).length < src.toList.length := by
      simp only [List.length_cons] at hle ⊢
      omega
    rw [renderChars_split src.toList 0 _ (Nat.zero_le _) (by omega)]
    simp only [Nat.sub_zero, List.isEmpty_cons, Bool.not_false,
      List.append_assoc, List.nil_append, List.cons_append, List.append_nil,
      if_true]

/-! ## The claims -/

/-- C1: code bug in `ArrayInterner::get_type`.  The claim says
`get_interned(v, t)` returns an identifier only when the exact pair (v, t)
was interned.  In the source, `get_type` computes `cell.has_type(&typ)`
with `.map` and then discards that boolean in `.and_then(|_| ..)`, so the
lookup succeeds whenever the string is present under any domain.  Here the
store obtained by interning "hello" under marker 0 only answers
`get_interned "hello" 1 = some 1`, although marker 1 was never recorded on
the cell (second conjunct). -/
theorem c1_get_interned_ignores_domain :
    ((ArrayInterner.new.intern "hello" 0).2.get_interned "hello" 1 = some 1) ∧
    ((getAt (ArrayInterner.new.intern "hello" 0).2.store 1).map
      (fun c => c.has_type 1) = some false) := by decide

/-- C2 counterexample: interning the empty string once into a fresh store
produces a second cell whose string equals the sentinel's, so the store's
cell strings are `["", ""]` — two distinct cells holding the same string,
refuting the claim exactly in the case the claim singles out. -/
theorem c2_empty_string_duplicated :
    ((ArrayInterner.new.intern "" 0).2.values = ["", ""]) ∧
    ¬ ((ArrayInterner.new.intern "" 0).2.values.Nodup) := by decide

/-- C2 amended: in every store state reachable from construction by any
sequence of operations, the cells after the sentinel (positions 1 and up)
hold pairwise distinct strings; the sentinel cell at position 0 is excluded
because interning the empty string duplicates its content. -/
theorem c2_values_nodup_after_sentinel (ops : List Op) :
    ((applySteps ArrayInterner.new ops).values.drop 1).Nodup :=
  nodup_applySteps ops ArrayInterner.new (by decide)

/-- C3 counterexample: one back consumption (`next_back`) and zero front
consumptions on the view of "toad" renders with the marker after one
character — `"t•oad"` — where the claim requires the marker at the front
consumption point, `"•toad"`: `num_matched` counts total consumption from
both ends, not front consumption. -/
theorem c3_marker_moves_on_back_consumption :
    ((SymbolIterator.new "toad").next_back.2.debugFmt = "\"t•oad\"") ∧
    ("\"t•oad\"" ≠ "\"•toad\"") := by decide

/-- C3 amended: for a source string of single-byte characters, after any
sequence of front and back consumptions the rendering is the original
string inside quote marks with the boundary marker after exactly the total
number of characters consumed from both ends (i.e. length minus remaining);
this coincides with the front-consumption point when only front
consumptions occurred, giving `"•toad"` fresh and `"toad•"` fully
consumed. -/
theorem c3_marker_at_total_consumed (s : String) (bs : List Bool)
    (h : strByteLen s = s.toList.length) :
    ((SymbolIterator.new s).applyConsume bs).debugFmt =
      String.mk ('"' :: (s.toList.take (s.toList.length -
          ((SymbolIterator.new s).applyConsume bs).remaining.length) ++
        '•' :: (s.toList.drop (s.toList.length -
          ((SymbolIterator.new s).applyConsume bs).remaining.length) ++ ['"']))) := by
  have h1 := applyConsume_source bs (SymbolIterator.new s)
  have h2 := applyConsume_remaining_le bs (SymbolIterator.new s)
  have h3 := debugFmt_eq ((SymbolIterator.new s).applyConsume bs)
    (by rw [h1]; exact h)
    (by rw [h1]; simpa [SymbolIterator.new] using h2)
  rw [h1] at h3
  exact h3

/-- Witness for C3 amended: the concrete instance at source "toad" after a
single back consumption. -/
theorem c3_marker_at_total_consumed_witness :
    strByteLen "toad" = "toad".toList.length ∧
    ((SymbolIterator.new "toad").applyConsume [false]).debugFmt =
      String.mk ('"' :: ("toad".toList.take ("toad".toList.length -
          ((SymbolIterator.new "toad").applyConsume [false]).remaining.length) ++
        '•' :: ("toad".toList.drop ("toad".toList.length -
          ((SymbolIterator.new "toad").applyConsume [false]).remaining.length) ++
            ['"']))) :=
  ⟨by decide, c3_marker_at_total_consumed "toad" [false] (by decide)⟩

/-- C4: resolving on a table whose identity differs from a symbol's
recorded origin yields the provenance-mismatch error carrying both
identities, is never the parse error, and the result is unchanged under an
arbitrary replacement of the table's store — the store is never queried. -/
theorem c4_cross_table_mismatch {T : Type} (tbl : SymbolTable)
    (other : ArrayInterner) (tryFrom : String → Option T) (sym : Symbol)
    (h : sym.origin ≠ tbl.addr) :
    tbl.resolveWith tryFrom sym =
        some (Except.error (ResolutionErr.MismatchErr tbl.addr sym.origin)) ∧
      tbl.resolveWith tryFrom sym ≠
        some (Except.error ResolutionErr.ParseErr) ∧
      tbl.resolveWith tryFrom sym =
        (SymbolTable.mk other tbl.addr).resolveWith tryFrom sym := by
  have hne : tbl.addr ≠ sym.origin := fun he => h he.symm
  refine ⟨?_, ?_, ?_⟩ <;> simp [SymbolTable.resolveWith, hne]

/-- Witness for C4: a symbol stamped with origin 1 resolved on a table with
identity 0. -/
theorem c4_cross_table_mismatch_witness :
    (SymbolTable.mk ArrayInterner.new 0).resolveWith (fun x => some x)
        (Symbol.mk 1 1) =
      some (Except.error (ResolutionErr.MismatchErr 0 1)) :=
  (c4_cross_table_mismatch (SymbolTable.mk ArrayInterner.new 0)
    ArrayInterner.new (fun x => some x) (Symbol.mk 1 1) (by decide)).1

/-- C5: round trip — resolving, on the same table, the symbol minted by
interning a string yields that string back as a successful result (for the
string domain, whose parse `tryFrom` is total). -/
theorem c5_resolve_intern_roundtrip (tbl : SymbolTable) (s : String)
    (typ : TypeId) :
    ((tbl.intern s typ).2).resolveWith (fun x => some x)
      ((tbl.intern s typ).1) = some (Except.ok s) := by
  simp only [SymbolTable.intern, SymbolTable.resolveWith]
  rw [if_neg (by simp)]
  rw [intern_resolve]
  rfl

/-- C6: interning the same string again — under the same or a different
domain marker, after any further sequence of operations — returns the same
raw identifier, on every store reachable from construction. -/
theorem c6_intern_id_stable (pre : List Op) (v : String) (t t' : TypeId)
    (mid : List Op) :
    ((applySteps ((applySteps ArrayInterner.new pre).intern v t).2 mid).intern
        v t').1 =
      ((applySteps ArrayInterner.new pre).intern v t).1 := by
  have hlen : 1 ≤ (applySteps ArrayInterner.new pre).store.length := by
    have h2 := length_applySteps pre ArrayInterner.new
    simpa [ArrayInterner.new] using h2
  have hne : (applySteps ArrayInterner.new pre).store ≠ [] := by
    intro hnil
    rw [hnil] at hlen
    simp at hlen
  have hpos := intern_position (applySteps ArrayInterner.new pre) v t hne
  have hstab := position_applySteps mid _ v _ hpos
  rw [intern_of_position_some _ v t' _ hstab]
  rfl

/-- C7: symbol equality holds iff the raw identifiers and the originating
table identities both agree; ordering is a function of the raw identifiers
alone (independent of origins, and `eq` exactly on equal identifiers); the
hash feeds only the raw identifier to the hasher, so it is independent of
the origin. -/
theorem c7_symbol_eq_ord_hash (a b : Symbol) :
    (Symbol.beq a b = true ↔ a.id = b.id ∧ a.origin = b.origin) ∧
      (∀ o1 o2 : Nat, Symbol.cmp a b = Symbol.cmp ⟨a.id, o1⟩ ⟨b.id, o2⟩) ∧
      (Symbol.cmp a b = Ordering.eq ↔ a.id = b.id) ∧
      (∀ (hasher : Nat → Nat) (o1 o2 : Nat),
        Symbol.hashWith hasher ⟨a.id, o1⟩ = Symbol.hashWith hasher ⟨a.id, o2⟩) := by
  refine ⟨?_, ?_, ?_, ?_⟩
  · simp [Symbol.beq]
  · intro o1 o2; rfl
  · simp [Symbol.cmp, compare_eq_iff_eq]
  · intro hasher o1 o2; rfl

/-- C8: an identifier produced by the store's own `intern` remains a valid
in-range position after any further sequence of operations, so `resolve`
never hits the invalid-identifier failure for it. -/
theorem c8_resolve_own_id_never_fails (a : ArrayInterner) (v : String)
    (t : TypeId) (ops : List Op) :
    ((applySteps ((a.intern v t).2) ops).resolve? ((a.intern v t).1)).isSome =
      true := by
  have h1 := intern_fst_lt a v t
  have h2 := length_applySteps ops ((a.intern v t).2)
  have h3 : (a.intern v t).1 < (applySteps ((a.intern v t).2) ops).store.length :=
    Nat.lt_of_lt_of_le h1 h2
  unfold ArrayInterner.resolve?
  rcases Option.isSome_iff_exists.mp (getAt_isSome_of_lt _ _ h3) with ⟨x, hx⟩
  simp [hx]

/-- C9: only `intern` mutates the shared store: every non-intern facade
operation (`resolve`, `get_interned`, `has_interned`) leaves the store —
cells, strings and domain-marker sets — exactly unchanged. -/
theorem c9_reads_leave_store_unchanged (a : ArrayInterner) (op : Op)
    (h : ∀ (v : String) (t : TypeId), op ≠ Op.internOp v t) :
    stepStore a op = a := by
  cases op with
  | internOp v t => exact absurd rfl (h v t)
  | resolveOp _ => rfl
  | getInternedOp _ _ => rfl
  | hasInternedOp _ _ => rfl

/-- Witness for C9: a concrete `resolve` operation on the fresh store. -/
theorem c9_reads_leave_store_unchanged_witness :
    stepStore ArrayInterner.new (Op.resolveOp 0) = ArrayInterner.new :=
  c9_reads_leave_store_unchanged ArrayInterner.new (Op.resolveOp 0)
    (fun _ _ h => Op.noConfusion h)

/-- C10: in every store state reachable from construction by any sequence
of operations, position 0 holds the untouched empty-string sentinel cell:
it exists, its string is empty (and its marker set is still empty), and no
operation removes or overwrites it. -/
theorem c10_sentinel_at_zero (ops : List Op) :
    getAt (applySteps ArrayInterner.new ops).store 0 = some ⟨"", []⟩ :=
  sentinel_applySteps ops ArrayInterner.new rfl

end SymTab
